import Mathlib

/-!
Shallow embedding of the streaming-indicator composition core of the `ta`
library: `RunningMovingAverage` (src/src/indicators/running_moving_average.rs),
`AverageTrueRange` (src/src/indicators/average_true_range.rs) and
`NormalizedAverageTrueRange` (src/src/indicators/natr.rs).

Rust `f64` values are embedded as `ℚ`; `usize` as `ℕ` (with the one fallible
`usize` subtraction modelled separately by a checked variant returning
`Option`).  `Result<Self, TaError>` is embedded as `Except TaError`.
Stateful `&mut self` methods become state-passing functions returning the
updated state together with the produced value.
-/

/-- Error type of the library.  Modelled from the spec: `src/errors.rs` is not
under src/; per §7 the single error kind is `InvalidParameter`, raised only at
construction time. -/
inductive TaError where
  | InvalidParameter
deriving DecidableEq

/-- State of `RunningMovingAverage` (running_moving_average.rs, struct fields
`period`, `count`, `prev`, `sum`). -/
structure RunningMovingAverage where
  period : ℕ
  count : ℕ
  prev : ℚ
  sum : ℚ
deriving DecidableEq

namespace RunningMovingAverage

/-- Embeds `RunningMovingAverage::new`: `0..=1 => Err(InvalidParameter)`, otherwise a
state with `count = 0`, `prev = 0.0`, `sum = 0.0`. -/
def new (period : ℕ) : Except TaError RunningMovingAverage :=
  match period with
  | 0 => .error .InvalidParameter
  | 1 => .error .InvalidParameter
  | _ => .ok { period := period, count := 0, prev := 0, sum := 0 }

/-- Embeds `Next<f64> for RunningMovingAverage::next`: increments `count`; while
`count < period` accumulates into `sum` and returns `0.0`; at `count == period`
returns `(sum + input) / period`; afterwards returns
`(prev * (period - 1) + input) / period`; always stores the result in `prev`. -/
def next (s : RunningMovingAverage) (input : ℚ) : RunningMovingAverage × ℚ :=
  let count := s.count + 1
  if count < s.period then
    ({ s with count := count, sum := s.sum + input, prev := 0 }, 0)
  else if count = s.period then
    let res := (s.sum + input) / (s.period : ℚ)
    ({ s with count := count, prev := res }, res)
  else
    let res := (s.prev * ((s.period - 1 : ℕ) : ℚ) + input) / (s.period : ℚ)
    ({ s with count := count, prev := res }, res)

/-- Checked variant of `next` which models the one fallible machine operation
in the body: the `usize` subtraction `self.period - 1` underflows (panics)
exactly when that branch is reached with `period = 0`. -/
def nextChecked (s : RunningMovingAverage) (input : ℚ) :
    Option (RunningMovingAverage × ℚ) :=
  let count := s.count + 1
  if count < s.period then
    some ({ s with count := count, sum := s.sum + input, prev := 0 }, 0)
  else if count = s.period then
    let res := (s.sum + input) / (s.period : ℚ)
    some ({ s with count := count, prev := res }, res)
  else if s.period = 0 then
    none
  else
    let res := (s.prev * ((s.period - 1 : ℕ) : ℚ) + input) / (s.period : ℚ)
    some ({ s with count := count, prev := res }, res)

/-- Embeds `Reset for RunningMovingAverage::reset`: sets `count = 0` and
`sum = 0.0` (note: `prev` is not touched). -/
def reset (s : RunningMovingAverage) : RunningMovingAverage :=
  { s with count := 0, sum := 0 }

/-- Embeds `fmt::Display for RunningMovingAverage`: `write!(f, "RMA(.)", self.period)`
with the period in place of the dot. -/
def display (s : RunningMovingAverage) : String :=
  "RMA(" ++ Nat.repr s.period ++ ")"

/-- Outputs produced by feeding a list of scalar inputs, one `next` per
element. -/
def run : RunningMovingAverage → List ℚ → List ℚ
  | _, [] => []
  | s, x :: xs => (next s x).2 :: run (next s x).1 xs

/-- State after feeding a list of scalar inputs. -/
def runState : RunningMovingAverage → List ℚ → RunningMovingAverage
  | s, [] => s
  | s, x :: xs => runState (next s x).1 xs

end RunningMovingAverage

/-- A price bar, as seen through the `High`/`Low`/`Close` accessor traits the
source requires of its structured input (the concrete bar type is an external
collaborator; only these three numeric fields are read). -/
structure Bar where
  high : ℚ
  low : ℚ
  close : ℚ
deriving DecidableEq

/-- Embeds `Next<&T> for RunningMovingAverage::next`: `self.next(input.close())`. -/
def RunningMovingAverage.nextBar (s : RunningMovingAverage) (input : Bar) :
    RunningMovingAverage × ℚ :=
  s.next input.close

/-- Modelled from the spec: `TrueRange` lives in a source file not under src/.
Per §3 it holds `previous_close: Option<f64>`, created empty. -/
structure TrueRange where
  prev_close : Option ℚ
deriving DecidableEq

namespace TrueRange

/-- Modelled from the spec: `TrueRange` is created empty (§3). -/
def new : TrueRange := ⟨none⟩

/-- Modelled from the spec (§4.2): `advance(bar)` computes
`max(high-low, |high-prev_close|, |low-prev_close|)` when a previous close
exists, else `high-low`; then stores the bar's close as the new previous
close. -/
def nextBar (t : TrueRange) (b : Bar) : TrueRange × ℚ :=
  let tr :=
    match t.prev_close with
    | none => b.high - b.low
    | some pc => max (b.high - b.low) (max |b.high - pc| |b.low - pc|)
  (⟨some b.close⟩, tr)

/-- Modelled from the spec (§4.3): the scalar entry point of the ATR chain
accepts "a pre-computed scalar true-range directly", so the tracker passes the
value through; the spec gives it no state update. -/
def nextVal (t : TrueRange) (x : ℚ) : TrueRange × ℚ :=
  (t, x)

/-- Modelled from the spec (§4.2): `reset()` clears the previous close. -/
def reset (_ : TrueRange) : TrueRange := ⟨none⟩

end TrueRange

/-- The moving-average capability contract: the source expresses it as the
trait bound `Period + Reset + Next<f64, Output = f64> + NewWithPeriod` on the
generic parameter `MA`; here it is a record of the four operations over an
abstract state type. -/
structure MAOps (σ : Type) where
  with_period : ℕ → Except TaError σ
  next : σ → ℚ → σ × ℚ
  reset : σ → σ
  period : σ → ℕ

/-- The `RunningMovingAverage` instance of the moving-average contract. -/
def rmaOps : MAOps RunningMovingAverage where
  with_period := RunningMovingAverage.new
  next := RunningMovingAverage.next
  reset := RunningMovingAverage.reset
  period := RunningMovingAverage.period

/-- Modelled from the spec: `ExponentialMovingAverage` lives in a source file
not under src/.  Per §3 it holds `period` and `current: Option<f64>`. -/
structure ExponentialMovingAverage where
  period : ℕ
  current : Option ℚ
deriving DecidableEq

namespace ExponentialMovingAverage

/-- Modelled from the spec (§4.1): construction fails with `InvalidParameter`
exactly when `period` is 0 for the Exponential strategy. -/
def new (period : ℕ) : Except TaError ExponentialMovingAverage :=
  match period with
  | 0 => .error .InvalidParameter
  | _ => .ok ⟨period, none⟩

/-- Modelled from the spec (§3): with `a = 2/(period+1)`, the first input
initializes `current` directly; subsequent inputs apply
`current = a*input + (1-a)*current`. -/
def next (s : ExponentialMovingAverage) (input : ℚ) :
    ExponentialMovingAverage × ℚ :=
  let a : ℚ := 2 / ((s.period : ℚ) + 1)
  match s.current with
  | none => (⟨s.period, some input⟩, input)
  | some c =>
    let res := a * input + (1 - a) * c
    (⟨s.period, some res⟩, res)

/-- Modelled from the spec (§4.1): reset returns to the just-constructed
state. -/
def reset (s : ExponentialMovingAverage) : ExponentialMovingAverage :=
  ⟨s.period, none⟩

end ExponentialMovingAverage

/-- The `ExponentialMovingAverage` instance of the moving-average contract. -/
def emaOps : MAOps ExponentialMovingAverage where
  with_period := ExponentialMovingAverage.new
  next := ExponentialMovingAverage.next
  reset := ExponentialMovingAverage.reset
  period := ExponentialMovingAverage.period

/-- State of `AverageTrueRange<MA>` (average_true_range.rs): one `TrueRange`
and one strategy state. -/
structure AverageTrueRange (σ : Type) where
  true_range : TrueRange
  ma : σ

namespace AverageTrueRange

variable {σ : Type}

/-- Embeds `AverageTrueRange::new`: a fresh `TrueRange` plus `MA::with_period(period)`,
propagating the strategy's error. -/
def new (m : MAOps σ) (period : ℕ) : Except TaError (AverageTrueRange σ) :=
  match m.with_period period with
  | .error e => .error e
  | .ok s => .ok ⟨TrueRange.new, s⟩

/-- Embeds `Next<f64> for AverageTrueRange::next`:
`self.ma.next(self.true_range.next(input))`. -/
def nextVal (m : MAOps σ) (s : AverageTrueRange σ) (input : ℚ) :
    AverageTrueRange σ × ℚ :=
  let tr := s.true_range.nextVal input
  let r := m.next s.ma tr.2
  (⟨tr.1, r.1⟩, r.2)

/-- Embeds `Next<&T> for AverageTrueRange::next`:
`self.ma.next(self.true_range.next(input))` on a structured bar. -/
def nextBar (m : MAOps σ) (s : AverageTrueRange σ) (input : Bar) :
    AverageTrueRange σ × ℚ :=
  let tr := s.true_range.nextBar input
  let r := m.next s.ma tr.2
  (⟨tr.1, r.1⟩, r.2)

/-- Embeds `Reset for AverageTrueRange`: resets the true-range tracker and the
strategy. -/
def reset (m : MAOps σ) (s : AverageTrueRange σ) : AverageTrueRange σ :=
  ⟨s.true_range.reset, m.reset s.ma⟩

/-- Embeds `Period for AverageTrueRange`: delegates to the inner strategy. -/
def period (m : MAOps σ) (s : AverageTrueRange σ) : ℕ :=
  m.period s.ma

/-- Embeds `fmt::Display for AverageTrueRange`: `write!(f, "ATR(.)", self.ma.period())`
with the period in place of the dot. -/
def display (m : MAOps σ) (s : AverageTrueRange σ) : String :=
  "ATR(" ++ Nat.repr (m.period s.ma) ++ ")"

end AverageTrueRange

/-- State of `NormalizedAverageTrueRange<MA>` (natr.rs): a wrapped
`AverageTrueRange<MA>`. -/
structure NormalizedAverageTrueRange (σ : Type) where
  atr : AverageTrueRange σ

namespace NormalizedAverageTrueRange

variable {σ : Type}

/-- Embeds `NormalizedAverageTrueRange::new`: wraps `AverageTrueRange::new(period)`,
propagating its error. -/
def new (m : MAOps σ) (period : ℕ) :
    Except TaError (NormalizedAverageTrueRange σ) :=
  match AverageTrueRange.new m period with
  | .error e => .error e
  | .ok a => .ok ⟨a⟩

/-- Embeds `Next<f64> for NormalizedAverageTrueRange::next`:
`self.atr.next(input) * 100.0 / input`. -/
def nextVal (m : MAOps σ) (s : NormalizedAverageTrueRange σ) (input : ℚ) :
    NormalizedAverageTrueRange σ × ℚ :=
  let r := AverageTrueRange.nextVal m s.atr input
  (⟨r.1⟩, r.2 * 100 / input)

/-- Embeds `Next<&T> for NormalizedAverageTrueRange::next`:
`self.atr.next(input) * 100.0 / input.close()`. -/
def nextBar (m : MAOps σ) (s : NormalizedAverageTrueRange σ) (input : Bar) :
    NormalizedAverageTrueRange σ × ℚ :=
  let r := AverageTrueRange.nextBar m s.atr input
  (⟨r.1⟩, r.2 * 100 / input.close)

/-- Embeds `Reset for NormalizedAverageTrueRange`: resets the wrapped ATR. -/
def reset (m : MAOps σ) (s : NormalizedAverageTrueRange σ) :
    NormalizedAverageTrueRange σ :=
  ⟨AverageTrueRange.reset m s.atr⟩

/-- Embeds `Period for NormalizedAverageTrueRange`: delegates to the wrapped ATR. -/
def period (m : MAOps σ) (s : NormalizedAverageTrueRange σ) : ℕ :=
  AverageTrueRange.period m s.atr

/-- Embeds `fmt::Display for NormalizedAverageTrueRange`:
`write!(f, "NATR(.)", self.atr.period())` with the period in place of the
dot. -/
def display (m : MAOps σ) (s : NormalizedAverageTrueRange σ) : String :=
  "NATR(" ++ Nat.repr (AverageTrueRange.period m s.atr) ++ ")"

end NormalizedAverageTrueRange

section RunFunctions

variable {σ : Type}

/-- Outputs of a strategy fed a list of scalar inputs. -/
def maRun (m : MAOps σ) : σ → List ℚ → List ℚ
  | _, [] => []
  | s, x :: xs => (m.next s x).2 :: maRun m (m.next s x).1 xs

/-- Outputs of the derived true ranges of a list of bars. -/
def TrueRange.runBar : TrueRange → List Bar → List ℚ
  | _, [] => []
  | t, b :: bs => (t.nextBar b).2 :: TrueRange.runBar (t.nextBar b).1 bs

/-- Outputs of an `AverageTrueRange` fed a list of bars. -/
def AverageTrueRange.runBar (m : MAOps σ) :
    AverageTrueRange σ → List Bar → List ℚ
  | _, [] => []
  | s, b :: bs =>
    (AverageTrueRange.nextBar m s b).2 ::
      AverageTrueRange.runBar m (AverageTrueRange.nextBar m s b).1 bs

/-- Outputs of an `AverageTrueRange` fed a list of scalar true ranges. -/
def AverageTrueRange.runVal (m : MAOps σ) :
    AverageTrueRange σ → List ℚ → List ℚ
  | _, [] => []
  | s, x :: xs =>
    (AverageTrueRange.nextVal m s x).2 ::
      AverageTrueRange.runVal m (AverageTrueRange.nextVal m s x).1 xs

/-- Outputs of a `NormalizedAverageTrueRange` fed a list of bars. -/
def NormalizedAverageTrueRange.runBar (m : MAOps σ) :
    NormalizedAverageTrueRange σ → List Bar → List ℚ
  | _, [] => []
  | s, b :: bs =>
    (NormalizedAverageTrueRange.nextBar m s b).2 ::
      NormalizedAverageTrueRange.runBar m
        (NormalizedAverageTrueRange.nextBar m s b).1 bs

/-- Outputs of a `NormalizedAverageTrueRange` fed a list of scalars. -/
def NormalizedAverageTrueRange.runVal (m : MAOps σ) :
    NormalizedAverageTrueRange σ → List ℚ → List ℚ
  | _, [] => []
  | s, x :: xs =>
    (NormalizedAverageTrueRange.nextVal m s x).2 ::
      NormalizedAverageTrueRange.runVal m
        (NormalizedAverageTrueRange.nextVal m s x).1 xs

end RunFunctions

/-- States of `RunningMovingAverage` reachable through the public interface:
produced by a successful `new` and closed under `next` and `reset`. -/
inductive Reachable : RunningMovingAverage → Prop where
  | new (p : ℕ) (s : RunningMovingAverage) :
      RunningMovingAverage.new p = .ok s → Reachable s
  | next (s : RunningMovingAverage) (x : ℚ) :
      Reachable s → Reachable (s.next x).1
  | reset (s : RunningMovingAverage) : Reachable s → Reachable s.reset

/-- Checked bar-advance of `AverageTrueRange` over the Running strategy: the
strategy step uses the checked model of `next`. -/
def AverageTrueRange.nextBarChecked
    (a : AverageTrueRange RunningMovingAverage) (b : Bar) :
    Option (AverageTrueRange RunningMovingAverage × ℚ) :=
  let tr := a.true_range.nextBar b
  (RunningMovingAverage.nextChecked a.ma tr.2).map (fun r => (⟨tr.1, r.1⟩, r.2))

/-- Checked bar-advance of `NormalizedAverageTrueRange` over the Running
strategy. -/
def NormalizedAverageTrueRange.nextBarChecked
    (v : NormalizedAverageTrueRange RunningMovingAverage) (b : Bar) :
    Option (NormalizedAverageTrueRange RunningMovingAverage × ℚ) :=
  (AverageTrueRange.nextBarChecked v.atr b).map
    (fun r => (⟨r.1⟩, r.2 * 100 / b.close))


namespace RunningMovingAverage

theorem next_period (s : RunningMovingAverage) (x : ℚ) :
    (s.next x).1.period = s.period := by
  unfold next
  dsimp only
  split_ifs <;> rfl

theorem next_count (s : RunningMovingAverage) (x : ℚ) :
    (s.next x).1.count = s.count + 1 := by
  unfold next
  dsimp only
  split_ifs <;> rfl

theorem next_prev (s : RunningMovingAverage) (x : ℚ) :
    (s.next x).1.prev = (s.next x).2 := by
  unfold next
  dsimp only
  split_ifs <;> rfl

theorem run_length (s : RunningMovingAverage) (xs : List ℚ) :
    (run s xs).length = xs.length := by
  induction xs generalizing s with
  | nil => rfl
  | cons x xs ih => simp [run, ih]

theorem runState_append (s : RunningMovingAverage) (xs ys : List ℚ) :
    runState s (xs ++ ys) = runState (runState s xs) ys := by
  induction xs generalizing s with
  | nil => rfl
  | cons x xs ih => simp [runState, ih]

theorem run_append (s : RunningMovingAverage) (xs ys : List ℚ) :
    run s (xs ++ ys) = run s xs ++ run (runState s xs) ys := by
  induction xs generalizing s with
  | nil => rfl
  | cons x xs ih => simp [run, runState, ih]

theorem runState_count (s : RunningMovingAverage) (xs : List ℚ) :
    (runState s xs).count = s.count + xs.length := by
  induction xs generalizing s with
  | nil => rfl
  | cons x xs ih => simp [runState, ih, next_count]; omega

theorem runState_period (s : RunningMovingAverage) (xs : List ℚ) :
    (runState s xs).period = s.period := by
  induction xs generalizing s with
  | nil => rfl
  | cons x xs ih => simp [runState, ih, next_period]

theorem run_getElem (s : RunningMovingAverage) (xs : List ℚ) (i : ℕ)
    (h : i < xs.length) :
    (run s xs)[i]? = some ((runState s (xs.take i)).next (xs[i])).2 := by
  conv_lhs => rw [(List.take_append_drop i xs).symm]
  rw [run_append]
  have hlen : (run s (xs.take i)).length = i := by
    rw [run_length, List.length_take]
    omega
  rw [List.getElem?_append_right (by omega)]
  rw [hlen]
  have hdrop : xs.drop i = xs[i] :: xs.drop (i + 1) := List.drop_eq_getElem_cons h
  rw [hdrop]
  simp [run]

end RunningMovingAverage

namespace RunningMovingAverage

theorem runState_take_succ (s : RunningMovingAverage) (xs : List ℚ) (k : ℕ)
    (h : k < xs.length) :
    runState s (xs.take (k + 1)) = ((runState s (xs.take k)).next (xs[k])).1 := by
  rw [List.take_succ, runState_append]
  have hget : xs[k]? = some xs[k] := List.getElem?_eq_getElem h
  simp [hget, runState]

theorem runState_take_warm (p : ℕ) (xs : List ℚ) (n : ℕ)
    (hn : n < p) (hlen : n ≤ xs.length) :
    runState ⟨p, 0, 0, 0⟩ (xs.take n) = ⟨p, n, 0, (xs.take n).sum⟩ := by
  induction n with
  | zero => simp [runState]
  | succ k ih =>
    have hk : k < p := by omega
    have hkl : k < xs.length := by omega
    rw [runState_take_succ _ _ _ hkl, ih hk (by omega)]
    have hsum : (xs.take (k + 1)).sum = (xs.take k).sum + xs[k] :=
      List.sum_take_succ xs k hkl
    rw [hsum]
    unfold next
    dsimp only
    rw [if_pos (by omega : k + 1 < p)]

theorem run_out_warm (p : ℕ) (xs : List ℚ) (i : ℕ)
    (hp : 2 ≤ p) (hi : i < xs.length) (hwarm : i + 1 < p) :
    (run ⟨p, 0, 0, 0⟩ xs)[i]? = some 0 := by
  rw [run_getElem _ _ _ hi]
  rw [runState_take_warm p xs i (by omega) (by omega)]
  unfold next
  dsimp only
  rw [if_pos (by omega : i + 1 < p)]

theorem run_out_fill (p : ℕ) (xs : List ℚ)
    (hp : 2 ≤ p) (hlen : p ≤ xs.length) :
    (run ⟨p, 0, 0, 0⟩ xs)[p - 1]? = some ((xs.take p).sum / (p : ℚ)) := by
  have hi : p - 1 < xs.length := by omega
  rw [run_getElem _ _ _ hi]
  rw [runState_take_warm p xs (p - 1) (by omega) (by omega)]
  have hstep : p - 1 + 1 = p := by omega
  have hsum : (xs.take p).sum = (xs.take (p - 1)).sum + xs[p - 1] := by
    conv_lhs => rw [show p = p - 1 + 1 by omega]
    exact List.sum_take_succ xs (p - 1) hi
  unfold next
  dsimp only
  rw [if_neg (by omega), if_pos (by omega : p - 1 + 1 = p)]
  rw [hsum]

theorem run_out_rec (p : ℕ) (xs : List ℚ) (n : ℕ)
    (hp : 2 ≤ p) (hpn : p ≤ n) (hn : n < xs.length) :
    ∃ w, (run ⟨p, 0, 0, 0⟩ xs)[n - 1]? = some w ∧
      (run ⟨p, 0, 0, 0⟩ xs)[n]? =
        some ((w * ((p - 1 : ℕ) : ℚ) + xs[n]) / (p : ℚ)) := by
  have hn1 : n - 1 < xs.length := by omega
  refine ⟨((runState ⟨p, 0, 0, 0⟩ (xs.take (n - 1))).next (xs[n - 1])).2, ?_, ?_⟩
  · exact run_getElem _ _ _ hn1
  · rw [run_getElem _ _ _ hn]
    have hstate : runState (⟨p, 0, 0, 0⟩ : RunningMovingAverage) (xs.take n) =
        ((runState ⟨p, 0, 0, 0⟩ (xs.take (n - 1))).next (xs[n - 1])).1 := by
      conv_lhs => rw [show n = n - 1 + 1 by omega]
      exact runState_take_succ _ _ _ hn1
    rw [hstate]
    set t := (runState (⟨p, 0, 0, 0⟩ : RunningMovingAverage) (xs.take (n - 1))).next (xs[n - 1]) with ht
    have hcount : t.1.count = n := by
      rw [ht, next_count, runState_count, List.length_take]
      simp
      omega
    have hperiod : t.1.period = p := by
      rw [ht, next_period, runState_period]
    have hprev : t.1.prev = t.2 := next_prev _ _
    unfold next
    dsimp only
    rw [hcount, hperiod, hprev]
    rw [if_neg (by omega), if_neg (by omega)]

end RunningMovingAverage

theorem RunningMovingAverage.reset_run_eq_fresh (s : RunningMovingAverage)
    (hp : 2 ≤ s.period) (xs : List ℚ) :
    RunningMovingAverage.run s.reset xs =
      RunningMovingAverage.run ⟨s.period, 0, 0, 0⟩ xs := by
  cases xs with
  | nil => rfl
  | cons x xs =>
    have h1 : s.reset.next x = ((⟨s.period, 1, 0, x⟩ : RunningMovingAverage), 0) := by
      unfold RunningMovingAverage.reset RunningMovingAverage.next
      dsimp only
      rw [if_pos (by omega : 0 + 1 < s.period)]
      norm_num
    have h2 : (⟨s.period, 0, 0, 0⟩ : RunningMovingAverage).next x =
        ((⟨s.period, 1, 0, x⟩ : RunningMovingAverage), 0) := by
      unfold RunningMovingAverage.next
      dsimp only
      rw [if_pos (by omega : 0 + 1 < s.period)]
      norm_num
    simp only [RunningMovingAverage.run, h1, h2]

theorem maRun_rmaOps (s : RunningMovingAverage) (xs : List ℚ) :
    maRun rmaOps s xs = RunningMovingAverage.run s xs := by
  induction xs generalizing s with
  | nil => rfl
  | cons x xs ih =>
    simp only [maRun, RunningMovingAverage.run]
    rw [show rmaOps.next = RunningMovingAverage.next from rfl, ih]

theorem AverageTrueRange.runBar_eq_maRun {σ : Type} (m : MAOps σ)
    (t : TrueRange) (s : σ) (bars : List Bar) :
    AverageTrueRange.runBar m ⟨t, s⟩ bars = maRun m s (TrueRange.runBar t bars) := by
  induction bars generalizing t s with
  | nil => rfl
  | cons b bs ih =>
    simp [AverageTrueRange.runBar, TrueRange.runBar, maRun,
      AverageTrueRange.nextBar, ih]

theorem AverageTrueRange.runVal_eq_maRun {σ : Type} (m : MAOps σ)
    (t : TrueRange) (s : σ) (xs : List ℚ) :
    AverageTrueRange.runVal m ⟨t, s⟩ xs = maRun m s xs := by
  induction xs generalizing s with
  | nil => rfl
  | cons x xs ih =>
    simp [AverageTrueRange.runVal, maRun, AverageTrueRange.nextVal,
      TrueRange.nextVal, ih]

theorem NormalizedAverageTrueRange.runBar_eq_zip {σ : Type} (m : MAOps σ)
    (a : AverageTrueRange σ) (bars : List Bar) :
    NormalizedAverageTrueRange.runBar m ⟨a⟩ bars =
      List.zipWith (fun v b => v * 100 / b.close)
        (AverageTrueRange.runBar m a bars) bars := by
  induction bars generalizing a with
  | nil => rfl
  | cons b bs ih =>
    simp [NormalizedAverageTrueRange.runBar, AverageTrueRange.runBar,
      NormalizedAverageTrueRange.nextBar, ih]

theorem NormalizedAverageTrueRange.runVal_eq_zip {σ : Type} (m : MAOps σ)
    (a : AverageTrueRange σ) (xs : List ℚ) :
    NormalizedAverageTrueRange.runVal m ⟨a⟩ xs =
      List.zipWith (fun v x => v * 100 / x)
        (AverageTrueRange.runVal m a xs) xs := by
  induction xs generalizing a with
  | nil => rfl
  | cons x xs ih =>
    simp [NormalizedAverageTrueRange.runVal, AverageTrueRange.runVal,
      NormalizedAverageTrueRange.nextVal, ih]

/-- C1: for every period >= 2, `RunningMovingAverage` advance returns 0 for each
of the first period-1 calls, the average of the first period inputs on the
period-th call, and `(prev*(period-1)+input)/period` on every later call, where
prev is the previous output; concretely, period 4 on [4,5,6,6,6,6,2] gives
[0,0,0,5.25,5.4375,5.578125,4.68359375]. -/
theorem rma_advance_contract (p : ℕ) (s0 : RunningMovingAverage)
    (hp : 2 ≤ p) (hnew : RunningMovingAverage.new p = .ok s0) :
    (∀ (xs : List ℚ) (i : ℕ), i < xs.length → i + 1 < p →
        (RunningMovingAverage.run s0 xs)[i]? = some 0) ∧
    (∀ xs : List ℚ, p ≤ xs.length →
        (RunningMovingAverage.run s0 xs)[p - 1]? =
          some ((xs.take p).sum / (p : ℚ))) ∧
    (∀ (xs : List ℚ) (n : ℕ), p ≤ n → ∀ (hn : n < xs.length),
        ∃ w, (RunningMovingAverage.run s0 xs)[n - 1]? = some w ∧
          (RunningMovingAverage.run s0 xs)[n]? =
            some ((w * ((p - 1 : ℕ) : ℚ) + xs[n]) / (p : ℚ))) ∧
    (∀ t, RunningMovingAverage.new 4 = .ok t →
        RunningMovingAverage.run t [4, 5, 6, 6, 6, 6, 2] =
          [0, 0, 0, 5.25, 5.4375, 5.578125, 4.68359375]) := by
  obtain ⟨k, rfl⟩ : ∃ k, p = k + 2 := ⟨p - 2, by omega⟩
  have hs0 : s0 = ⟨k + 2, 0, 0, 0⟩ := by
    have h2 : RunningMovingAverage.new (k + 2) = .ok ⟨k + 2, 0, 0, 0⟩ := rfl
    rw [h2] at hnew
    injection hnew with h
    exact h.symm
  subst hs0
  refine ⟨?_, ?_, ?_, ?_⟩
  · intro xs i hi hwarm
    exact RunningMovingAverage.run_out_warm (k + 2) xs i hp hi hwarm
  · intro xs hlen
    exact RunningMovingAverage.run_out_fill (k + 2) xs hp hlen
  · intro xs n hpn hn
    exact RunningMovingAverage.run_out_rec (k + 2) xs n hp hpn hn
  · intro t ht
    have h4 : RunningMovingAverage.new 4 = .ok ⟨4, 0, 0, 0⟩ := rfl
    rw [h4] at ht
    injection ht with h
    rw [← h]
    norm_num [RunningMovingAverage.run, RunningMovingAverage.next]

/-- C1 witness: the contract instantiated at period 4 with the test inputs. -/
theorem rma_advance_contract_witness :
    RunningMovingAverage.run ⟨4, 0, 0, 0⟩ [4, 5, 6, 6, 6, 6, 2] =
      [0, 0, 0, 5.25, 5.4375, 5.578125, 4.68359375] :=
  (rma_advance_contract 4 ⟨4, 0, 0, 0⟩ (by norm_num) rfl).2.2.2 ⟨4, 0, 0, 0⟩ rfl

/-- C2: reset followed by re-feeding reproduces the output sequence of a
freshly constructed instance with the same period, for
`RunningMovingAverage` (concretely), for generic `AverageTrueRange` and
`NormalizedAverageTrueRange` whenever the inner strategy obeys the law, and
for both compositions instantiated with the Running strategy. -/
theorem reset_refeed_law :
    (∀ (s s0 : RunningMovingAverage), 2 ≤ s.period →
      RunningMovingAverage.new s.period = .ok s0 →
      ∀ xs, RunningMovingAverage.run s.reset xs =
        RunningMovingAverage.run s0 xs) ∧
    (∀ (σ : Type) (m : MAOps σ) (p : ℕ) (a f : AverageTrueRange σ),
      AverageTrueRange.new m p = .ok f →
      (∀ xs, maRun m (m.reset a.ma) xs = maRun m f.ma xs) →
      ∀ bars, AverageTrueRange.runBar m (AverageTrueRange.reset m a) bars =
        AverageTrueRange.runBar m f bars) ∧
    (∀ (σ : Type) (m : MAOps σ) (p : ℕ) (v f : NormalizedAverageTrueRange σ),
      NormalizedAverageTrueRange.new m p = .ok f →
      (∀ xs, maRun m (m.reset v.atr.ma) xs = maRun m f.atr.ma xs) →
      ∀ bars, NormalizedAverageTrueRange.runBar m
          (NormalizedAverageTrueRange.reset m v) bars =
        NormalizedAverageTrueRange.runBar m f bars) ∧
    (∀ (p : ℕ) (a f : AverageTrueRange RunningMovingAverage),
      2 ≤ p → a.ma.period = p → AverageTrueRange.new rmaOps p = .ok f →
      ∀ bars, AverageTrueRange.runBar rmaOps
          (AverageTrueRange.reset rmaOps a) bars =
        AverageTrueRange.runBar rmaOps f bars) ∧
    (∀ (p : ℕ) (v f : NormalizedAverageTrueRange RunningMovingAverage),
      2 ≤ p → v.atr.ma.period = p →
      NormalizedAverageTrueRange.new rmaOps p = .ok f →
      ∀ bars, NormalizedAverageTrueRange.runBar rmaOps
          (NormalizedAverageTrueRange.reset rmaOps v) bars =
        NormalizedAverageTrueRange.runBar rmaOps f bars) := by
  have h1 : ∀ (s s0 : RunningMovingAverage), 2 ≤ s.period →
      RunningMovingAverage.new s.period = .ok s0 →
      ∀ xs, RunningMovingAverage.run s.reset xs =
        RunningMovingAverage.run s0 xs := by
    intro s s0 hp hnew xs
    have hs0 : s0 = ⟨s.period, 0, 0, 0⟩ := by
      obtain ⟨k, hk⟩ : ∃ k, s.period = k + 2 := ⟨s.period - 2, by omega⟩
      rw [hk] at hnew
      have h2 : RunningMovingAverage.new (k + 2) = .ok ⟨k + 2, 0, 0, 0⟩ := rfl
      rw [h2] at hnew
      injection hnew with h
      rw [← h, hk]
    rw [hs0]
    exact RunningMovingAverage.reset_run_eq_fresh s hp xs
  have h2 : ∀ (σ : Type) (m : MAOps σ) (p : ℕ) (a f : AverageTrueRange σ),
      AverageTrueRange.new m p = .ok f →
      (∀ xs, maRun m (m.reset a.ma) xs = maRun m f.ma xs) →
      ∀ bars, AverageTrueRange.runBar m (AverageTrueRange.reset m a) bars =
        AverageTrueRange.runBar m f bars := by
    intro σ m p a f hf hma bars
    have hfd : f = ⟨TrueRange.new, f.ma⟩ := by
      unfold AverageTrueRange.new at hf
      cases hw : m.with_period p with
      | error e => rw [hw] at hf; exact Except.noConfusion hf
      | ok s1 =>
        rw [hw] at hf
        injection hf with h
        rw [← h]
    have hreset : AverageTrueRange.reset m a =
        ⟨TrueRange.new, m.reset a.ma⟩ := rfl
    rw [hreset, AverageTrueRange.runBar_eq_maRun, hma]
    conv_rhs => rw [hfd]
    rw [AverageTrueRange.runBar_eq_maRun]
  have h3 : ∀ (σ : Type) (m : MAOps σ) (p : ℕ)
      (v f : NormalizedAverageTrueRange σ),
      NormalizedAverageTrueRange.new m p = .ok f →
      (∀ xs, maRun m (m.reset v.atr.ma) xs = maRun m f.atr.ma xs) →
      ∀ bars, NormalizedAverageTrueRange.runBar m
          (NormalizedAverageTrueRange.reset m v) bars =
        NormalizedAverageTrueRange.runBar m f bars := by
    intro σ m p v f hf hma bars
    have hfa : AverageTrueRange.new m p = .ok f.atr := by
      unfold NormalizedAverageTrueRange.new at hf
      cases hw : AverageTrueRange.new m p with
      | error e => rw [hw] at hf; exact Except.noConfusion hf
      | ok a =>
        rw [hw] at hf
        injection hf with h
        rw [← h]
    have hv : NormalizedAverageTrueRange.reset m v =
        ⟨AverageTrueRange.reset m v.atr⟩ := rfl
    have hfd : f = ⟨f.atr⟩ := rfl
    rw [hv, hfd, NormalizedAverageTrueRange.runBar_eq_zip,
      NormalizedAverageTrueRange.runBar_eq_zip]
    rw [h2 σ m p v.atr f.atr hfa hma bars]
  have hrma : ∀ (p : ℕ) (s : RunningMovingAverage)
      (f : AverageTrueRange RunningMovingAverage), 2 ≤ p → s.period = p →
      AverageTrueRange.new rmaOps p = .ok f →
      ∀ xs, maRun rmaOps (rmaOps.reset s) xs = maRun rmaOps f.ma xs := by
    intro p s f hp hsp hf xs
    have hfm : f.ma = ⟨p, 0, 0, 0⟩ := by
      unfold AverageTrueRange.new at hf
      have hw : rmaOps.with_period p = .ok ⟨p, 0, 0, 0⟩ := by
        show RunningMovingAverage.new p = .ok ⟨p, 0, 0, 0⟩
        obtain ⟨k, rfl⟩ : ∃ k, p = k + 2 := ⟨p - 2, by omega⟩
        rfl
      rw [hw] at hf
      injection hf with h
      rw [← h]
    rw [hfm, maRun_rmaOps, maRun_rmaOps]
    show RunningMovingAverage.run s.reset xs = _
    rw [RunningMovingAverage.reset_run_eq_fresh s (by omega) xs, hsp]
  refine ⟨h1, h2, h3, ?_, ?_⟩
  · intro p a f hp hap hf bars
    exact h2 RunningMovingAverage rmaOps p a f hf
      (hrma p a.ma f hp hap hf) bars
  · intro p v f hp hvp hf bars
    have hfa : AverageTrueRange.new rmaOps p = .ok f.atr := by
      unfold NormalizedAverageTrueRange.new at hf
      cases hw : AverageTrueRange.new rmaOps p with
      | error e => rw [hw] at hf; exact Except.noConfusion hf
      | ok a =>
        rw [hw] at hf
        injection hf with h
        rw [← h]
    exact h3 RunningMovingAverage rmaOps p v f hf
      (hrma p v.atr.ma f.atr hp hvp hfa) bars

/-- C2 witness: the restart law applied to a concrete advanced
`RunningMovingAverage` of period 2. -/
theorem reset_refeed_law_witness :
    RunningMovingAverage.run (RunningMovingAverage.reset ⟨2, 2, 1.5, 1⟩) [3, 7] =
      RunningMovingAverage.run ⟨2, 0, 0, 0⟩ [3, 7] :=
  reset_refeed_law.1 ⟨2, 2, 1.5, 1⟩ ⟨2, 0, 0, 0⟩ (by norm_num) rfl [3, 7]

/-- C3 counterexample: after feeding [1, 2] to a fresh period-2 instance,
`reset` leaves `prev = 1.5`, so the reset state is not the state produced by
`new(2)` (whose `prev` is 0). -/
theorem rma_reset_not_fresh_state :
    RunningMovingAverage.new 2 = .ok ⟨2, 0, 0, 0⟩ ∧
    RunningMovingAverage.reset
        (RunningMovingAverage.runState ⟨2, 0, 0, 0⟩ [1, 2]) ≠ ⟨2, 0, 0, 0⟩ := by
  refine ⟨rfl, ?_⟩
  norm_num [RunningMovingAverage.runState, RunningMovingAverage.next,
    RunningMovingAverage.reset, RunningMovingAverage.mk.injEq]

/-- C3 amended: `reset` returns `count` and `sum` to their just-constructed
values and keeps `period`, but leaves `prev` unchanged rather than zeroing it;
because `prev` is always overwritten before it is read, the reset instance
still produces exactly the outputs of a freshly constructed one. -/
theorem rma_reset_state_amended (s : RunningMovingAverage) :
    s.reset.count = 0 ∧ s.reset.sum = 0 ∧ s.reset.period = s.period ∧
    s.reset.prev = s.prev ∧
    (2 ≤ s.period → ∀ xs, RunningMovingAverage.run s.reset xs =
      RunningMovingAverage.run ⟨s.period, 0, 0, 0⟩ xs) :=
  ⟨rfl, rfl, rfl, rfl, fun hp xs =>
    RunningMovingAverage.reset_run_eq_fresh s hp xs⟩

/-- C3 amended witness: the amended reset description at a concrete advanced
instance. -/
theorem rma_reset_state_amended_witness :
    (RunningMovingAverage.reset ⟨2, 2, 1.5, 1⟩).count = 0 ∧
    (RunningMovingAverage.reset ⟨2, 2, 1.5, 1⟩).sum = 0 ∧
    (RunningMovingAverage.reset ⟨2, 2, 1.5, 1⟩).period = 2 ∧
    (RunningMovingAverage.reset ⟨2, 2, 1.5, 1⟩).prev = 1.5 ∧
    RunningMovingAverage.run (RunningMovingAverage.reset ⟨2, 2, 1.5, 1⟩) [9] =
      RunningMovingAverage.run ⟨2, 0, 0, 0⟩ [9] :=
  have h := rma_reset_state_amended ⟨2, 2, 1.5, 1⟩
  ⟨h.1, h.2.1, h.2.2.1, h.2.2.2.1, h.2.2.2.2 (by norm_num) [9]⟩

/-- C4: `NormalizedAverageTrueRange` output equals the `AverageTrueRange`
output times `100/close` at every tick, for every strategy and both the bar
and the scalar entry points (for the scalar one, `close` is the input
itself); the division is applied unconditionally, with no guard for a zero
close. -/
theorem natr_eq_atr_scaled (σ : Type) (m : MAOps σ)
    (s : NormalizedAverageTrueRange σ) :
    (∀ bars, NormalizedAverageTrueRange.runBar m s bars =
      List.zipWith (fun v b => v * 100 / b.close)
        (AverageTrueRange.runBar m s.atr bars) bars) ∧
    (∀ xs, NormalizedAverageTrueRange.runVal m s xs =
      List.zipWith (fun v x => v * 100 / x)
        (AverageTrueRange.runVal m s.atr xs) xs) := by
  cases s with
  | mk a =>
    exact ⟨fun bars => NormalizedAverageTrueRange.runBar_eq_zip m a bars,
      fun xs => NormalizedAverageTrueRange.runVal_eq_zip m a xs⟩

/-- C5: construction fails with `InvalidParameter` exactly when the period is
below the strategy minimum: `RunningMovingAverage::new` errs iff period < 2;
`AverageTrueRange::new` and `NormalizedAverageTrueRange::new` propagate the
inner strategy's error and succeed whenever it succeeds, so with the Running
strategy they err exactly for period < 2. -/
theorem construction_validation :
    (∀ p : ℕ, p < 2 → RunningMovingAverage.new p = .error .InvalidParameter) ∧
    (∀ p : ℕ, 2 ≤ p → RunningMovingAverage.new p = .ok ⟨p, 0, 0, 0⟩) ∧
    (∀ (σ : Type) (m : MAOps σ) (p : ℕ) (e : TaError),
      m.with_period p = .error e →
      AverageTrueRange.new m p = .error e ∧
      NormalizedAverageTrueRange.new m p = .error e) ∧
    (∀ (σ : Type) (m : MAOps σ) (p : ℕ) (s : σ), m.with_period p = .ok s →
      AverageTrueRange.new m p = .ok ⟨TrueRange.new, s⟩ ∧
      NormalizedAverageTrueRange.new m p = .ok ⟨⟨TrueRange.new, s⟩⟩) ∧
    (∀ p : ℕ, p < 2 →
      AverageTrueRange.new rmaOps p = .error .InvalidParameter ∧
      NormalizedAverageTrueRange.new rmaOps p = .error .InvalidParameter) ∧
    (∀ p : ℕ, 2 ≤ p →
      AverageTrueRange.new rmaOps p = .ok ⟨TrueRange.new, ⟨p, 0, 0, 0⟩⟩ ∧
      NormalizedAverageTrueRange.new rmaOps p =
        .ok ⟨⟨TrueRange.new, ⟨p, 0, 0, 0⟩⟩⟩) := by
  have hlow : ∀ p : ℕ, p < 2 →
      RunningMovingAverage.new p = .error .InvalidParameter := by
    intro p hp
    interval_cases p
    · rfl
    · rfl
  have hhigh : ∀ p : ℕ, 2 ≤ p →
      RunningMovingAverage.new p = .ok ⟨p, 0, 0, 0⟩ := by
    intro p hp
    obtain ⟨k, rfl⟩ : ∃ k, p = k + 2 := ⟨p - 2, by omega⟩
    rfl
  have herr : ∀ (σ : Type) (m : MAOps σ) (p : ℕ) (e : TaError),
      m.with_period p = .error e →
      AverageTrueRange.new m p = .error e ∧
      NormalizedAverageTrueRange.new m p = .error e := by
    intro σ m p e h
    have ha : AverageTrueRange.new m p = .error e := by
      unfold AverageTrueRange.new
      rw [h]
    have hn : NormalizedAverageTrueRange.new m p = .error e := by
      unfold NormalizedAverageTrueRange.new
      rw [ha]
    exact ⟨ha, hn⟩
  have hok : ∀ (σ : Type) (m : MAOps σ) (p : ℕ) (s : σ),
      m.with_period p = .ok s →
      AverageTrueRange.new m p = .ok ⟨TrueRange.new, s⟩ ∧
      NormalizedAverageTrueRange.new m p = .ok ⟨⟨TrueRange.new, s⟩⟩ := by
    intro σ m p s h
    have ha : AverageTrueRange.new m p = .ok ⟨TrueRange.new, s⟩ := by
      unfold AverageTrueRange.new
      rw [h]
    have hn : NormalizedAverageTrueRange.new m p = .ok ⟨⟨TrueRange.new, s⟩⟩ := by
      unfold NormalizedAverageTrueRange.new
      rw [ha]
    exact ⟨ha, hn⟩
  refine ⟨hlow, hhigh, herr, hok, ?_, ?_⟩
  · intro p hp
    exact herr RunningMovingAverage rmaOps p .InvalidParameter (hlow p hp)
  · intro p hp
    exact hok RunningMovingAverage rmaOps p ⟨p, 0, 0, 0⟩ (hhigh p hp)

/-- C5 witness: validation outcomes at the boundary periods 1 and 2. -/
theorem construction_validation_witness :
    RunningMovingAverage.new 1 = .error .InvalidParameter ∧
    RunningMovingAverage.new 2 = .ok ⟨2, 0, 0, 0⟩ ∧
    AverageTrueRange.new rmaOps 1 = .error .InvalidParameter ∧
    NormalizedAverageTrueRange.new rmaOps 2 =
      .ok ⟨⟨TrueRange.new, ⟨2, 0, 0, 0⟩⟩⟩ :=
  ⟨construction_validation.1 1 (by norm_num),
    construction_validation.2.1 2 (by norm_num),
    (construction_validation.2.2.2.2.1 1 (by norm_num)).1,
    (construction_validation.2.2.2.2.2 2 (by norm_num)).2⟩

theorem Reachable.period_ge_two {s : RunningMovingAverage}
    (h : Reachable s) : 2 ≤ s.period := by
  induction h with
  | new p s hnew =>
    match p, hnew with
    | 0, hnew => exact Except.noConfusion hnew
    | 1, hnew => exact Except.noConfusion hnew
    | (k + 2), hnew =>
      have h2 : RunningMovingAverage.new (k + 2) = .ok ⟨k + 2, 0, 0, 0⟩ := rfl
      rw [h2] at hnew
      injection hnew with h
      rw [← h]
      show 2 ≤ k + 2
      omega
  | next s x hs ih => rw [RunningMovingAverage.next_period]; exact ih
  | reset s hs ih => exact ih

/-- C9: every reachable `RunningMovingAverage` state has period >= 2, so in
`next` the `usize` subtraction `period - 1` cannot underflow and the divisor
`period as f64` is nonzero. -/
theorem rma_reachable_invariant (s : RunningMovingAverage)
    (h : Reachable s) :
    2 ≤ s.period ∧ s.period - 1 + 1 = s.period ∧ ((s.period : ℚ) ≠ 0) := by
  have hp := h.period_ge_two
  refine ⟨hp, by omega, ?_⟩
  exact_mod_cast (by omega : (s.period : ℤ) ≠ 0)

/-- C9 witness: the invariant at the freshly constructed period-2 state. -/
theorem rma_reachable_invariant_witness :
    2 ≤ (⟨2, 0, 0, 0⟩ : RunningMovingAverage).period ∧
    (⟨2, 0, 0, 0⟩ : RunningMovingAverage).period - 1 + 1 =
      (⟨2, 0, 0, 0⟩ : RunningMovingAverage).period ∧
    (((⟨2, 0, 0, 0⟩ : RunningMovingAverage).period : ℚ) ≠ 0) :=
  rma_reachable_invariant ⟨2, 0, 0, 0⟩ (Reachable.new 2 ⟨2, 0, 0, 0⟩ rfl)

theorem RunningMovingAverage.nextChecked_eq (s : RunningMovingAverage)
    (hp : 2 ≤ s.period) (x : ℚ) :
    RunningMovingAverage.nextChecked s x =
      some (RunningMovingAverage.next s x) := by
  unfold RunningMovingAverage.nextChecked RunningMovingAverage.next
  dsimp only
  split_ifs with h1 h2 h3
  · rfl
  · rfl
  · omega
  · rfl

/-- C6: on every reachable state, advance is total: the checked models of
advance, in which the only fallible machine operation of the bodies (the
`usize` subtraction `period - 1` inside the Running strategy) may fail,
always succeed and agree with the total embedding, for
`RunningMovingAverage`, `AverageTrueRange` and `NormalizedAverageTrueRange`
(the latter on every bar, a zero close included); `reset` and `period` are
plain total functions. -/
theorem rma_advance_total :
    (∀ s : RunningMovingAverage, Reachable s → ∀ x : ℚ,
      RunningMovingAverage.nextChecked s x =
        some (RunningMovingAverage.next s x)) ∧
    (∀ a : AverageTrueRange RunningMovingAverage, Reachable a.ma → ∀ b : Bar,
      AverageTrueRange.nextBarChecked a b =
        some (AverageTrueRange.nextBar rmaOps a b)) ∧
    (∀ v : NormalizedAverageTrueRange RunningMovingAverage,
      Reachable v.atr.ma → ∀ b : Bar,
      NormalizedAverageTrueRange.nextBarChecked v b =
        some (NormalizedAverageTrueRange.nextBar rmaOps v b)) := by
  have h1 : ∀ s : RunningMovingAverage, Reachable s → ∀ x : ℚ,
      RunningMovingAverage.nextChecked s x =
        some (RunningMovingAverage.next s x) :=
    fun s h x => RunningMovingAverage.nextChecked_eq s h.period_ge_two x
  have h2 : ∀ a : AverageTrueRange RunningMovingAverage, Reachable a.ma →
      ∀ b : Bar, AverageTrueRange.nextBarChecked a b =
        some (AverageTrueRange.nextBar rmaOps a b) := by
    intro a h b
    unfold AverageTrueRange.nextBarChecked AverageTrueRange.nextBar
    dsimp only
    rw [h1 a.ma h]
    rfl
  refine ⟨h1, h2, ?_⟩
  intro v h b
  unfold NormalizedAverageTrueRange.nextBarChecked
    NormalizedAverageTrueRange.nextBar
  rw [h2 v.atr h]
  rfl

/-- C6 witness: totality of advance at freshly constructed period-2 states,
for the normalized indicator on a bar whose close is zero. -/
theorem rma_advance_total_witness :
    RunningMovingAverage.nextChecked ⟨2, 0, 0, 0⟩ 5 =
      some (RunningMovingAverage.next ⟨2, 0, 0, 0⟩ 5) ∧
    NormalizedAverageTrueRange.nextBarChecked
        ⟨⟨TrueRange.new, ⟨2, 0, 0, 0⟩⟩⟩ ⟨3, 1, 0⟩ =
      some (NormalizedAverageTrueRange.nextBar rmaOps
        ⟨⟨TrueRange.new, ⟨2, 0, 0, 0⟩⟩⟩ ⟨3, 1, 0⟩) :=
  ⟨rma_advance_total.1 ⟨2, 0, 0, 0⟩ (Reachable.new 2 ⟨2, 0, 0, 0⟩ rfl) 5,
    rma_advance_total.2.2 ⟨⟨TrueRange.new, ⟨2, 0, 0, 0⟩⟩⟩
      (Reachable.new 2 ⟨2, 0, 0, 0⟩ rfl) ⟨3, 1, 0⟩⟩

/-- C7: `AverageTrueRange` with the Exponential strategy and period 3 on the
bars (10, 7.5, 9), (11, 9, 9.5), (9, 5, 8) returns [2.5, 2.25, 3.375]. -/
theorem atr_ema_concrete (a : AverageTrueRange ExponentialMovingAverage)
    (h : AverageTrueRange.new emaOps 3 = .ok a) :
    AverageTrueRange.runBar emaOps a
      [⟨10, 7.5, 9⟩, ⟨11, 9, 9.5⟩, ⟨9, 5, 8⟩] = [2.5, 2.25, 3.375] := by
  have h3 : AverageTrueRange.new emaOps 3 = .ok ⟨TrueRange.new, ⟨3, none⟩⟩ := rfl
  rw [h3] at h
  injection h with h
  rw [← h]
  norm_num [AverageTrueRange.runBar, AverageTrueRange.nextBar,
    TrueRange.nextBar, TrueRange.new, emaOps, ExponentialMovingAverage.next, abs]

/-- C7 witness: the concrete run applied to the constructed instance. -/
theorem atr_ema_concrete_witness :
    AverageTrueRange.runBar emaOps ⟨TrueRange.new, ⟨3, none⟩⟩
      [⟨10, 7.5, 9⟩, ⟨11, 9, 9.5⟩, ⟨9, 5, 8⟩] = [2.5, 2.25, 3.375] :=
  atr_ema_concrete ⟨TrueRange.new, ⟨3, none⟩⟩ rfl

/-- C8: the structured-bar advance of `RunningMovingAverage` equals the scalar
advance on the bar's close (same value, same state); and the two
`AverageTrueRange` entry points produce identical outputs whenever the
true-range values derived along the bar run coincide with the scalar inputs. -/
theorem dual_entry_equivalence :
    (∀ (s : RunningMovingAverage) (b : Bar),
      RunningMovingAverage.nextBar s b = RunningMovingAverage.next s b.close) ∧
    (∀ (σ : Type) (m : MAOps σ) (t1 t2 : TrueRange) (ms : σ)
        (bars : List Bar) (xs : List ℚ),
      TrueRange.runBar t1 bars = xs →
      AverageTrueRange.runBar m ⟨t1, ms⟩ bars =
        AverageTrueRange.runVal m ⟨t2, ms⟩ xs) := by
  refine ⟨fun s b => rfl, ?_⟩
  intro σ m t1 t2 ms bars xs hder
  rw [AverageTrueRange.runBar_eq_maRun, hder, AverageTrueRange.runVal_eq_maRun]

/-- C8 witness: the equivalence at a concrete bar and its derived true
range. -/
theorem dual_entry_equivalence_witness :
    RunningMovingAverage.nextBar ⟨3, 0, 0, 0⟩ ⟨10, 7.5, 9⟩ =
      RunningMovingAverage.next ⟨3, 0, 0, 0⟩ 9 ∧
    TrueRange.runBar TrueRange.new [⟨10, 7.5, 9⟩] = [2.5] ∧
    AverageTrueRange.runBar rmaOps ⟨TrueRange.new, ⟨3, 0, 0, 0⟩⟩
        [⟨10, 7.5, 9⟩] =
      AverageTrueRange.runVal rmaOps ⟨TrueRange.new, ⟨3, 0, 0, 0⟩⟩ [2.5] := by
  have hder : TrueRange.runBar TrueRange.new [(⟨10, 7.5, 9⟩ : Bar)] = [2.5] := by
    norm_num [TrueRange.runBar, TrueRange.nextBar, TrueRange.new]
  exact ⟨dual_entry_equivalence.1 ⟨3, 0, 0, 0⟩ ⟨10, 7.5, 9⟩, hder,
    dual_entry_equivalence.2 RunningMovingAverage rmaOps TrueRange.new
      TrueRange.new ⟨3, 0, 0, 0⟩ [⟨10, 7.5, 9⟩] [2.5] hder⟩

theorem digitChar_ne_space (n : ℕ) : Nat.digitChar n ≠ ' ' := by
  by_cases h : n < 16
  · interval_cases n <;> decide
  · unfold Nat.digitChar
    iterate 16 rw [if_neg (by omega)]
    decide

theorem toDigitsCore_ne_space (base : ℕ) (fuel : ℕ) : ∀ (n : ℕ) (ds : List Char),
    (∀ c ∈ ds, c ≠ ' ') → ∀ c ∈ Nat.toDigitsCore base fuel n ds, c ≠ ' ' := by
  induction fuel with
  | zero => intro n ds h; simpa [Nat.toDigitsCore] using h
  | succ f ih =>
    intro n ds h
    unfold Nat.toDigitsCore
    dsimp only
    split
    · intro c hc
      rcases List.mem_cons.mp hc with rfl | hc
      · exact digitChar_ne_space _
      · exact h c hc
    · apply ih
      intro c hc
      rcases List.mem_cons.mp hc with rfl | hc
      · exact digitChar_ne_space _
      · exact h c hc

theorem repr_ne_space (n : ℕ) : ∀ c ∈ (Nat.repr n).toList, c ≠ ' ' := by
  unfold Nat.repr
  intro c hc
  have hh : (Nat.toDigits 10 n).asString.toList = Nat.toDigits 10 n := by
    simp [List.asString, String.toList]
  rw [hh] at hc
  exact toDigitsCore_ne_space 10 (n + 1) n [] (by simp) c hc

theorem wrapped_repr_ne_space (pre post : String)
    (hpre : ∀ c ∈ pre.toList, c ≠ ' ') (hpost : ∀ c ∈ post.toList, c ≠ ' ')
    (n : ℕ) : ∀ c ∈ (pre ++ Nat.repr n ++ post).toList, c ≠ ' ' := by
  intro c hc
  have hsplit : (pre ++ Nat.repr n ++ post).toList =
      pre.toList ++ (Nat.repr n).toList ++ post.toList := by
    simp [String.toList]
  rw [hsplit] at hc
  rcases List.mem_append.mp hc with hc | hc
  · rcases List.mem_append.mp hc with hc | hc
    · exact hpre c hc
    · exact repr_ne_space n c hc
  · exact hpost c hc

/-- C10: the three display operations format exactly as the algorithm name
with the configured period in parentheses, with no whitespace anywhere in the
rendered string; concretely, "RMA(5)", "ATR(8)" and "NATR(8)". -/
theorem display_format :
    (∀ s : RunningMovingAverage,
      s.display = "RMA(" ++ Nat.repr s.period ++ ")" ∧
      ∀ c ∈ s.display.toList, c ≠ ' ') ∧
    (∀ (σ : Type) (m : MAOps σ) (a : AverageTrueRange σ),
      AverageTrueRange.display m a = "ATR(" ++ Nat.repr (m.period a.ma) ++ ")" ∧
      ∀ c ∈ (AverageTrueRange.display m a).toList, c ≠ ' ') ∧
    (∀ (σ : Type) (m : MAOps σ) (v : NormalizedAverageTrueRange σ),
      NormalizedAverageTrueRange.display m v =
        "NATR(" ++ Nat.repr (AverageTrueRange.period m v.atr) ++ ")" ∧
      ∀ c ∈ (NormalizedAverageTrueRange.display m v).toList, c ≠ ' ') ∧
    RunningMovingAverage.display ⟨5, 0, 0, 0⟩ = "RMA(5)" ∧
    AverageTrueRange.display emaOps ⟨TrueRange.new, ⟨8, none⟩⟩ = "ATR(8)" ∧
    NormalizedAverageTrueRange.display rmaOps
      ⟨⟨TrueRange.new, ⟨8, 0, 0, 0⟩⟩⟩ = "NATR(8)" := by
  refine ⟨?_, ?_, ?_, rfl, rfl, rfl⟩
  · intro s
    exact ⟨rfl, wrapped_repr_ne_space "RMA(" ")" (by decide) (by decide) s.period⟩
  · intro σ m a
    exact ⟨rfl, wrapped_repr_ne_space "ATR(" ")" (by decide) (by decide)
      (m.period a.ma)⟩
  · intro σ m v
    exact ⟨rfl, wrapped_repr_ne_space "NATR(" ")" (by decide) (by decide)
      (AverageTrueRange.period m v.atr)⟩

/-- C10 witness: the exact format and the absence of a space, checked on the
period-5 Running instance at the character R. -/
theorem display_format_witness :
    RunningMovingAverage.display ⟨5, 0, 0, 0⟩ =
      "RMA(" ++ Nat.repr (5 : ℕ) ++ ")" ∧
    ('R' : Char) ≠ ' ' :=
  ⟨(display_format.1 ⟨5, 0, 0, 0⟩).1,
    (display_format.1 ⟨5, 0, 0, 0⟩).2 'R' (by decide)⟩
